import Mathlib

/-
Verification of the circular-buffer queue (`Queue`) and its position-tracking
extension (`TrackerQueue`) from `src/queue.js`.

Modelling conventions (shallow embedding of the JavaScript source):
* A JS value held in the queue is `JSVal := Option Int`; `none` models the JS
  value `undefined` (which is also what out-of-range array reads produce and
  what the queue uses as its absent marker), `some n` models any other value.
* The backing store `this._array` is a `List JSVal` whose length is the array's
  `length` property.  Reading `array[i]` for a natural `i` is `rd`, which
  yields `none` (undefined) out of range, exactly as in JS.  Reading at a
  possibly negative index is `jsGet`.  Assigning `array[i] = v` is `jsSet`:
  in range it overwrites, past the end it extends the array with holes the
  way JS assignment does, and at a negative index it is modelled as a no-op
  (JS stores the value as a non-index object property, which none of the
  queue's index-based reads used by the claims ever look at).
* `Array.prototype.copyWithin(target, start, end)` is `jsCopyWithin`, with JS
  clamping and its "as if through an intermediate buffer" overlap semantics.
* `this._frontIndex` is a `Nat` (the source never drives it negative) and
  `this._backIndex` an `Int` (the source does drive it to -1: a queue built
  from an empty iterable, and `remove` decrementing a zero back index).
* Integer `%` on nonnegative operands agrees between JS and `Nat.mod` /
  `Int.emod`; every place where JS could compute `x % 0 = NaN` is noted at
  the definition it affects.
* The tracker `Map` of `TrackerQueue` is an association list with
  set / get / delete semantics; its keys are compared with decidable equality,
  which coincides with JS "sameValueZero" on the values used here.
-/

/-- A JavaScript value stored in (or returned by) the queue: `none` is
`undefined`, `some n` is any other (distinguishable) value. -/
abbrev JSVal := Option Int

/-- Read `l[i]` the way JS reads a numeric array index: the element in range,
`undefined` (i.e. `none`) out of range. -/
def rd : List JSVal → Nat → JSVal
  | [], _ => none
  | a :: _, 0 => a
  | _ :: l, n + 1 => rd l n

/-- In-range array assignment (`l[i] = v` for `i < l.length`). -/
def st : List JSVal → Nat → JSVal → List JSVal
  | [], _, _ => []
  | _ :: l, 0, v => v :: l
  | a :: l, n + 1, v => a :: st l n v

/-- The length-`n` list whose `i`-th entry is `f i`. -/
def tabulate : Nat → (Nat → JSVal) → List JSVal
  | 0, _ => []
  | n + 1, f => f 0 :: tabulate n (fun i => f (i + 1))

/-- JS `array[i] = v` for an arbitrary integer index: overwrite in range,
extend with holes past the end, and at a negative index store nothing that an
index-based read will ever see (JS keeps it as a plain object property). -/
def jsSet (l : List JSVal) (i : Int) (v : JSVal) : List JSVal :=
  if i < 0 then l
  else if i.toNat < l.length then st l i.toNat v
  else l ++ List.replicate (i.toNat - l.length) none ++ [v]

/-- JS read `array[i]` at an arbitrary integer index. -/
def jsGet (l : List JSVal) (i : Int) : JSVal :=
  if 0 ≤ i then rd l i.toNat else none

/-- JS `Array.prototype.copyWithin(target, start, stop)` restricted to the
nonnegative indices the source uses: indices are clamped to the length and the
block `l[start..stop)` is copied (as if via an intermediate buffer) onto
`l[target..]`, truncated at the end of the array. -/
def jsCopyWithin (l : List JSVal) (target start stop : Nat) : List JSVal :=
  let len := l.length
  let t := min target len
  let s := min start len
  let e := min stop len
  let count := min (e - s) (len - t)
  tabulate len (fun j => if t ≤ j ∧ j < t + count then rd l (s + (j - t)) else rd l j)

/-- State of `Queue` from `src/queue.js`: backing store `_array`, the slot
indices `_frontIndex` and `_backIndex`, and the element count `_size`. -/
structure Queue where
  arr : List JSVal
  frontIndex : Nat
  backIndex : Int
  size : Nat
deriving Repr, DecidableEq

namespace Queue

/-- The `new Queue(arg)` constructor for an iterable `arg`: the elements are
copied in order, `_size = _array.length`, `_backIndex = _size - 1` (so `-1`
for an empty iterable), `_frontIndex = 0`. -/
def fromList (l : List JSVal) : Queue :=
  { arr := l, frontIndex := 0, backIndex := (l.length : Int) - 1, size := l.length }

/-- The `new Queue(n)` constructor for a (nonnegative integer) number `n`:
`new Array(n)` full of holes, all indices zero. -/
def fromCap (n : Nat) : Queue :=
  { arr := List.replicate n none, frontIndex := 0, backIndex := 0, size := 0 }

/-- The numeric-argument constructor including the validation JS itself
performs: `new Array(n)` throws `RangeError: Invalid array length` for a
negative (or non-integer) `n`; the queue's own code adds no check. -/
def construct (n : Int) : Except String Queue :=
  if n < 0 then .error "Invalid array length" else .ok (fromCap n.toNat)

/-- Method `_at(index)`: `this._array[(this._frontIndex + index) % this._array.length]`.
For a zero-length store JS computes index `NaN` and the read gives
`undefined`; the model gives `none` there as well (any read of `[]` is
`none`), so no special case is needed. -/
def atRaw (q : Queue) (index : Nat) : JSVal :=
  rd q.arr ((q.frontIndex + index) % q.arr.length)

/-- Method `at(index)`: the element at logical position `index`, or `undefined` when
`index` is outside `[0, size)`. -/
def at' (q : Queue) (index : Nat) : JSVal :=
  if index < q.size then q.atRaw index else none

/-- The `front` getter: `this._size ? this._array[this._frontIndex] : undefined`.
Note the read is at the raw slot, without the modulus `_at` applies. -/
def front (q : Queue) : JSVal :=
  if q.size ≠ 0 then rd q.arr q.frontIndex else none

/-- The `back` getter: `this._size ? this._array[this._backIndex] : undefined`
(the raw read at an `Int` index, which can be `-1`). -/
def back (q : Queue) : JSVal :=
  if q.size ≠ 0 then jsGet q.arr q.backIndex else none

/-- The inner guard of `_expand`:
`oldLength - this._frontIndex > this.backIndex + 1` in the source.  `Queue`
has no property named `backIndex` (the getter is `back`, the field
`_backIndex`), so `this.backIndex` is `undefined`, `undefined + 1` is `NaN`,
and a `>` comparison against `NaN` is `false`.  The guard therefore always
evaluates to `false` and the first branch of `_expand` is dead code. -/
def expandGuard (_oldLength _frontIndex : Nat) : Bool := false

/-- Method `_expand()`: double the store (`this._array.length *= 2` appends holes)
and, when the live window wraps (`_backIndex < _frontIndex`), re-linearize it.
Because `expandGuard` is constantly `false` (see its docstring) the branch
actually taken always relocates the wrapped prefix `[0, _backIndex + 1)` to
the newly appended space and shifts `_backIndex` up by the old length. -/
def expand (q : Queue) : Queue :=
  let oldLength := q.arr.length
  let arr2 := q.arr ++ List.replicate oldLength none
  if q.backIndex < (q.frontIndex : Int) then
    if expandGuard oldLength q.frontIndex then
      { q with arr := jsCopyWithin arr2 (q.frontIndex + oldLength) q.frontIndex oldLength,
               frontIndex := q.frontIndex + oldLength }
    else
      { q with arr := jsCopyWithin arr2 oldLength 0 (q.backIndex + 1).toNat,
               backIndex := q.backIndex + oldLength }
  else
    { q with arr := arr2 }

/-- Method `push(item)`.  When empty, the item is written at the current `_backIndex`
slot; otherwise the store is expanded if full, `_backIndex` advances by one
modulo the (new) length and the item is written there.  (For a zero-length
store JS computes `NaN` for the new back index and the write is invisible to
index reads; the only claim that pushes into such a queue takes the
empty-queue branch, which performs no modulus.) -/
def push (q : Queue) (item : JSVal) : Queue :=
  if q.size = 0 then
    { q with arr := jsSet q.arr q.backIndex item, size := q.size + 1 }
  else
    let q1 := if q.size = q.arr.length then q.expand else q
    let b := (q1.backIndex + 1) % (q1.arr.length : Int)
    { q1 with arr := jsSet q1.arr b item, backIndex := b, size := q1.size + 1 }

/-- Method `pop()`: capture `this._array[this._frontIndex]` (a raw read), advance
`_frontIndex` modulo the length only when more than one element remains,
decrement `_size`.  On an empty queue, return `undefined` and change
nothing. -/
def pop (q : Queue) : JSVal × Queue :=
  if q.size ≠ 0 then
    (rd q.arr q.frontIndex,
      { q with
        frontIndex := if 1 < q.size then (q.frontIndex + 1) % q.arr.length else q.frontIndex,
        size := q.size - 1 })
  else (none, q)

/-- The compaction step of `remove(index)` (the body of its `_size > 1` case):
locate the absolute slot `i` and shift either the block before it forward or
the block after it backward, depending on the side comparisons of the source
(`i < (_frontIndex + _backIndex) / 2` is the JS float comparison, rendered
here as `2 * i < _frontIndex + _backIndex`). -/
def removeShift (q : Queue) (index : Nat) : Queue :=
  let i := (q.frontIndex + index) % q.arr.length
  if (q.frontIndex : Int) ≤ q.backIndex then
    if 2 * (i : Int) < (q.frontIndex : Int) + q.backIndex then
      { q with arr := jsCopyWithin q.arr (q.frontIndex + 1) q.frontIndex i,
               frontIndex := q.frontIndex + 1 }
    else
      { q with arr := jsCopyWithin q.arr i (i + 1) (q.backIndex + 1).toNat,
               backIndex := q.backIndex - 1 }
  else if q.frontIndex ≤ i then
    { q with arr := jsCopyWithin q.arr (q.frontIndex + 1) q.frontIndex i,
             frontIndex := q.frontIndex + 1 }
  else
    { q with arr := jsCopyWithin q.arr i (i + 1) (q.backIndex + 1).toNat,
             backIndex := q.backIndex - 1 }

/-- Method `remove(index)`: read `at(index)`; if that is `undefined` return
`undefined` and do nothing else (note this also triggers when the *stored
element* is the value `undefined`); otherwise compact when more than one
element remains, decrement `_size`, and return the captured element. -/
def remove (q : Queue) (index : Nat) : JSVal × Queue :=
  let item := q.at' index
  if item = none then (none, q)
  else
    let q1 := if 1 < q.size then q.removeShift index else q
    (item, { q1 with size := q1.size - 1 })

/-- Method `clear()`: reset `_frontIndex`, `_backIndex`, `_size` to zero. -/
def clear (q : Queue) : Queue :=
  { q with frontIndex := 0, backIndex := 0, size := 0 }

end Queue

/-- One JS `Map` entry of the tracker: key and stored slot number (the source
stores `this._backIndex` there, so the slot is an `Int`). -/
abbrev TrackerEntry := JSVal × Int

/-- JS `Map.prototype.set`: overwrite the entry with the matching key, or append
a new one. -/
def mapSet (m : List TrackerEntry) (k : JSVal) (v : Int) : List TrackerEntry :=
  if m.any (fun p => p.1 = k) then
    m.map (fun p => if p.1 = k then (k, v) else p)
  else m ++ [(k, v)]

/-- JS `Map.prototype.get`: the stored value, or `undefined` (here `none`). -/
def mapGet (m : List TrackerEntry) (k : JSVal) : Option Int :=
  (m.find? (fun p => p.1 = k)).map Prod.snd

/-- JS `Map.prototype.delete` (ignoring the returned boolean, as the source does). -/
def mapDelete (m : List TrackerEntry) (k : JSVal) : List TrackerEntry :=
  m.filter (fun p => p.1 ≠ k)

/-- State of `TrackerQueue`: the inherited `Queue` fields plus the reverse
index `_tracker` and the key extractor `_key`. -/
structure TrackerQueue where
  arr : List JSVal
  frontIndex : Nat
  backIndex : Int
  size : Nat
  tracker : List TrackerEntry
  key : JSVal → JSVal

namespace TrackerQueue

/-- The inherited `Queue` portion of the state. -/
def toQueue (t : TrackerQueue) : Queue :=
  { arr := t.arr, frontIndex := t.frontIndex, backIndex := t.backIndex, size := t.size }

/-- Write back the `Queue` portion after a `super` call. -/
def withQueue (t : TrackerQueue) (q : Queue) : TrackerQueue :=
  { t with arr := q.arr, frontIndex := q.frontIndex, backIndex := q.backIndex, size := q.size }

/-- The tracker-rebuild loop shared by the constructor and `_expand`:
`for (let i = 0; i < size; ++i) tracker.set(key(array[i]), i)`.  Note it keys
on `array[i]` for `i` running over `0 .. size`, i.e. raw slots from the start
of the array, not over the live window. -/
def rebuild (m : List TrackerEntry) (key : JSVal → JSVal) (arr : List JSVal) (size : Nat) :
    List TrackerEntry :=
  (List.range size).foldl (fun m i => mapSet m (key (rd arr i)) (i : Int)) m

/-- The `TrackerQueue` constructor on an iterable argument. -/
def fromList (l : List JSVal) (key : JSVal → JSVal) : TrackerQueue :=
  let q := Queue.fromList l
  { arr := q.arr, frontIndex := q.frontIndex, backIndex := q.backIndex, size := q.size,
    tracker := rebuild [] key q.arr q.size, key := key }

/-- The `TrackerQueue` constructor on a numeric argument. -/
def fromCap (n : Nat) (key : JSVal → JSVal) : TrackerQueue :=
  let q := Queue.fromCap n
  { arr := q.arr, frontIndex := q.frontIndex, backIndex := q.backIndex, size := q.size,
    tracker := rebuild [] key q.arr q.size, key := key }

/-- Method `TrackerQueue._expand`: `super._expand()` followed by the rebuild loop
(which writes slot numbers `0 .. size`, regardless of where the live window
actually sits after relocation). -/
def expand (t : TrackerQueue) : TrackerQueue :=
  let t1 := t.withQueue (t.toQueue.expand)
  { t1 with tracker := rebuild t1.tracker t1.key t1.arr t1.size }

/-- Method `TrackerQueue.push`: the inherited push — whose internal `this._expand()`
dynamically dispatches to `TrackerQueue._expand` — followed by
`tracker.set(key(item), _backIndex)`. -/
def push (t : TrackerQueue) (item : JSVal) : TrackerQueue :=
  let t1 :=
    if t.size = 0 then
      { t with arr := jsSet t.arr t.backIndex item, size := t.size + 1 }
    else
      let t2 := if t.size = t.arr.length then t.expand else t
      let b := (t2.backIndex + 1) % (t2.arr.length : Int)
      { t2 with arr := jsSet t2.arr b item, backIndex := b, size := t2.size + 1 }
  { t1 with tracker := mapSet t1.tracker (t1.key item) t1.backIndex }

/-- Method `TrackerQueue.pop`: `super.pop()`, then delete the popped key when a value
was actually removed. -/
def pop (t : TrackerQueue) : JSVal × TrackerQueue :=
  let r := t.toQueue.pop
  let t1 := t.withQueue r.2
  if r.1 ≠ none then (r.1, { t1 with tracker := mapDelete t1.tracker (t1.key r.1) })
  else (r.1, t1)

/-- Method `TrackerQueue.remove`: `super.remove(index)`, then — when an element was
removed — delete its key and rewrite the slot entries of the elements at
logical positions `0 .. index` (only the portion in front of the removed
position). -/
def remove (t : TrackerQueue) (index : Nat) : JSVal × TrackerQueue :=
  let r := t.toQueue.remove index
  let t1 := t.withQueue r.2
  if r.1 ≠ none then
    let t2 := { t1 with tracker := mapDelete t1.tracker (t1.key r.1) }
    let t3 := { t2 with tracker :=
      (List.range index).foldl (fun m i =>
        let k := (t2.frontIndex + i) % t2.arr.length
        mapSet m (t2.key (rd t2.arr k)) (k : Int)) t2.tracker }
    (r.1, t3)
  else (r.1, t1)

/-- Method `position(item)`: look the key up in the tracker; if present, let
`n = slot - _frontIndex` and return `n` when nonnegative, else `_size + n`
(the source adds the *size*, not the capacity); if absent return `-1`. -/
def position (t : TrackerQueue) (item : JSVal) : Int :=
  match mapGet t.tracker (t.key item) with
  | some queueIndex =>
      let n := queueIndex - (t.frontIndex : Int)
      if 0 ≤ n then n else (t.size : Int) + n
  | none => -1

/-- Inherited `at(index)`. -/
def at' (t : TrackerQueue) (index : Nat) : JSVal :=
  t.toQueue.at' index

/-- Inherited `front` getter. -/
def front (t : TrackerQueue) : JSVal :=
  t.toQueue.front

end TrackerQueue

/-- The states of `Queue` reachable, through its own operations, from a
well-formed construction: a positive integer capacity or a nonempty iterable
(the degenerate zero-capacity constructions are treated separately by the
claims about construction). -/
inductive Reachable : Queue → Prop where
  | fromCap : ∀ n : Nat, 1 ≤ n → Reachable (Queue.fromCap n)
  | fromList : ∀ l : List JSVal, l ≠ [] → Reachable (Queue.fromList l)
  | push : ∀ q v, Reachable q → Reachable (q.push v)
  | pop : ∀ q, Reachable q → Reachable (q.pop).2
  | remove : ∀ q i, Reachable q → Reachable (q.remove i).2
  | clear : ∀ q, Reachable q → Reachable q.clear

/-- The structural invariant of reachable `Queue` states.  `_backIndex` can
lag behind reality in two documented ways (`_backIndex = -1` after removing
the last element of a wrapped window whose back sat at slot 0, and
`_frontIndex = _array.length` after removing position 0 of a window whose
front sat at the last slot), so the invariant pins `_backIndex` only up to
one subtracted capacity. -/
def QInv (q : Queue) : Prop :=
  1 ≤ q.arr.length ∧ q.size ≤ q.arr.length ∧ q.frontIndex ≤ q.arr.length ∧
  -1 ≤ q.backIndex ∧ q.backIndex < (q.arr.length : Int) ∧
  (0 < q.size →
    (q.backIndex = (q.frontIndex : Int) + q.size - 1 ∨
     q.backIndex = (q.frontIndex : Int) + q.size - 1 - q.arr.length)) ∧
  (q.size = 0 →
    (q.backIndex = (q.frontIndex : Int) ∨
     q.backIndex = (q.frontIndex : Int) - q.arr.length))

/-- Iterated push: `q.pushAll vs` pushes the values of `vs` in order. -/
def Queue.pushAll (q : Queue) (vs : List JSVal) : Queue :=
  vs.foldl Queue.push q

/-- The queue left after `k` successive `pop()` calls. -/
def Queue.popDrop (q : Queue) (k : Nat) : Queue :=
  Nat.rec q (fun _ r => (r.pop).2) k

/-- The value returned by the `(k+1)`-th `pop()` (0-indexed `k`). -/
def Queue.kthPop (q : Queue) (k : Nat) : JSVal :=
  ((q.popDrop k).pop).1

/-- Concrete run for the `position` claim: a `TrackerQueue` of capacity 4 with
the identity key, after `push 1..4`, `pop`, `push 5`, `pop` — the live window
wraps (slots 2,3,0 hold 3,4,5) while the queue is not full. -/
def traceC1 : TrackerQueue :=
  let t := TrackerQueue.fromCap 4 (fun x => x)
  let t := t.push (some 1)
  let t := t.push (some 2)
  let t := t.push (some 3)
  let t := t.push (some 4)
  let t := (t.pop).2
  let t := t.push (some 5)
  (t.pop).2

/-- Concrete run for the tracked-removal claim: `TrackerQueue` built from
`[1,2,3,4]` (identity key), then `remove 2` — the base compaction shifts the
back portion. -/
def traceC2 : JSVal × TrackerQueue :=
  (TrackerQueue.fromList [some 1, some 2, some 3, some 4] (fun x => x)).remove 2

/-- Concrete run for the growth-rebuild claim: `TrackerQueue` of capacity 2
(identity key) after `push 1`, `push 2`, `pop`, `push 3`, `push 4` — the last
push grows a wrapped full window with `_frontIndex = 1`. -/
def traceC3 : TrackerQueue :=
  let t := TrackerQueue.fromCap 2 (fun x => x)
  let t := t.push (some 1)
  let t := t.push (some 2)
  let t := (t.pop).2
  let t := t.push (some 3)
  t.push (some 4)

/-- Concrete run for the empty-iterable claim: `new Queue([])` followed by
`push(1)`. -/
def traceC9 : Queue :=
  (Queue.fromList []).push (some 1)

/-- Concrete run for the empty-reset claim: capacity 2, `push 1`, `push 2`,
`pop`, `push 3` (window wraps with `_frontIndex = 1`), `remove 0` (bumps
`_frontIndex` to 2 without a modulus), `pop` (reaches size 0). -/
def traceC10 : Queue :=
  let q := Queue.fromCap 2
  let q := q.push (some 1)
  let q := q.push (some 2)
  let q := (q.pop).2
  let q := q.push (some 3)
  let q := (q.remove 0).2
  (q.pop).2

/-- State description of a queue built by pushes alone (no pops or removals)
from a positive-capacity construction, with `l` the list of pushed values:
the window starts at slot 0 and holds exactly `l`, in order. -/
def PushPhase (q : Queue) (l : List JSVal) : Prop :=
  q.frontIndex = 0 ∧ 1 ≤ q.arr.length ∧ q.size = l.length ∧ q.size ≤ q.arr.length ∧
  q.backIndex = (if l.length = 0 then 0 else (l.length : Int) - 1) ∧
  ∀ j, j < l.length → rd q.arr j = rd l j

/- ------------------------------------------------------------------ -/
/- Basic lemmas about the array primitives.                            -/
/- ------------------------------------------------------------------ -/

theorem rd_of_le {l : List JSVal} {j : Nat} (h : l.length ≤ j) : rd l j = none := by
  induction l generalizing j with
  | nil => cases j <;> rfl
  | cons a l ih =>
    cases j with
    | zero => simp at h
    | succ j => exact ih (by simpa using h)

theorem rd_replicate (n j : Nat) : rd (List.replicate n none) j = none := by
  induction n generalizing j with
  | zero => cases j <;> rfl
  | succ n ih => cases j with
    | zero => rfl
    | succ j => simpa [List.replicate] using ih j

theorem rd_pad (l : List JSVal) (n j : Nat) :
    rd (l ++ List.replicate n none) j = rd l j := by
  induction l generalizing j with
  | nil => simpa using rd_replicate n j
  | cons a l ih => cases j with
    | zero => rfl
    | succ j => simpa using ih j

theorem length_st (l : List JSVal) (n : Nat) (v : JSVal) : (st l n v).length = l.length := by
  induction l generalizing n with
  | nil => rfl
  | cons a l ih => cases n with
    | zero => rfl
    | succ n => simpa [st] using ih n

theorem rd_st (l : List JSVal) (n : Nat) (v : JSVal) (j : Nat) :
    rd (st l n v) j = if j = n ∧ n < l.length then v else rd l j := by
  induction l generalizing n j with
  | nil => simp [st, rd_of_le]
  | cons a l ih =>
    cases n with
    | zero => cases j <;> simp [st, rd]
    | succ n =>
      cases j with
      | zero => simp [st, rd]
      | succ j => simpa [st, rd, Nat.succ_lt_succ_iff] using ih n j

theorem length_tabulate (n : Nat) (f : Nat → JSVal) : (tabulate n f).length = n := by
  induction n generalizing f with
  | zero => rfl
  | succ n ih => simpa [tabulate] using ih _

theorem rd_tabulate (n : Nat) (f : Nat → JSVal) (j : Nat) :
    rd (tabulate n f) j = if j < n then f j else none := by
  induction n generalizing f j with
  | zero => simp [tabulate]; cases j <;> rfl
  | succ n ih =>
    cases j with
    | zero => simp [tabulate, rd]
    | succ j => simpa [tabulate, rd, Nat.succ_lt_succ_iff] using ih (fun i => f (i + 1)) j

theorem length_jsCopyWithin (l : List JSVal) (t s e : Nat) :
    (jsCopyWithin l t s e).length = l.length := by
  simp [jsCopyWithin, length_tabulate]

theorem rd_jsCopyWithin (l : List JSVal) (target start stop j : Nat)
    (h1 : target ≤ l.length) (h2 : start ≤ l.length) (h3 : stop ≤ l.length) :
    rd (jsCopyWithin l target start stop) j =
      if target ≤ j ∧ j < target + min (stop - start) (l.length - target)
      then rd l (start + (j - target)) else rd l j := by
  have hmin1 : min target l.length = target := Nat.min_eq_left h1
  have hmin2 : min start l.length = start := Nat.min_eq_left h2
  have hmin3 : min stop l.length = stop := Nat.min_eq_left h3
  simp only [jsCopyWithin, hmin1, hmin2, hmin3, rd_tabulate]
  by_cases hj : j < l.length
  · simp [hj]
  · rw [if_neg hj, if_neg, rd_of_le (Nat.le_of_not_lt hj)]
    have hc : min (stop - start) (l.length - target) ≤ l.length - target :=
      Nat.min_le_right _ _
    omega

theorem length_jsSet_of_lt (l : List JSVal) (i : Int) (v : JSVal)
    (h1 : 0 ≤ i) (h2 : i.toNat < l.length) : (jsSet l i v).length = l.length := by
  rw [jsSet, if_neg (by omega), if_pos h2, length_st]

theorem rd_jsSet_of_lt (l : List JSVal) (i : Int) (v : JSVal)
    (h1 : 0 ≤ i) (h2 : i.toNat < l.length) (j : Nat) :
    rd (jsSet l i v) j = if j = i.toNat then v else rd l j := by
  rw [jsSet, if_neg (by omega), if_pos h2, rd_st]
  by_cases hj : j = i.toNat
  · simp [hj, h2]
  · simp [hj]

theorem jsSet_neg (l : List JSVal) (i : Int) (v : JSVal) (h : i < 0) : jsSet l i v = l := by
  rw [jsSet, if_pos h]

theorem mod_window {a L : Nat} (h : a < 2 * L) :
    a % L = if a < L then a else a - L := by
  by_cases ha : a < L
  · rw [if_pos ha, Nat.mod_eq_of_lt ha]
  · rw [if_neg ha, Nat.mod_eq_sub_mod (Nat.le_of_not_lt ha),
      Nat.mod_eq_of_lt (by omega)]

/- ------------------------------------------------------------------ -/
/- Small structural lemmas about the queue operations.                 -/
/- ------------------------------------------------------------------ -/

theorem removeShift_size (q : Queue) (index : Nat) : (q.removeShift index).size = q.size := by
  simp only [Queue.removeShift]
  split_ifs <;> rfl

/- ------------------------------------------------------------------ -/
/- Claim theorems.                                                     -/
/- ------------------------------------------------------------------ -/

/-- C1.  The claim fails on the code: in `traceC1` the live window wraps while
the queue is not full (`_frontIndex = 2`, size 3, capacity 4), element `5`
sits at slot 0, and `position(5)` returns `1` — computed with `_size` where
the claim (and the spec) requires `(slot - frontIndex) mod capacity = 2`; the
element actually at logical position 1 is `4`, and `5` is at logical
position 2.  (`position` adds `this._size`, not the capacity, to a negative
difference.) -/
theorem position_size_bug :
    traceC1.frontIndex = 2 ∧ traceC1.size = 3 ∧ traceC1.arr.length = 4 ∧
    mapGet traceC1.tracker (some 5) = some 0 ∧
    traceC1.position (some 5) = 1 ∧
    traceC1.at' 1 = some 4 ∧ traceC1.at' 2 = some 5 ∧
    ((0 - (2 : Int)) % 4 = 2) := by decide

/-- C2.  The claim fails on the code: removing position 2 of the tracked queue
`[1,2,3,4]` makes the base `remove` shift the *back* portion (element `4`
moves from slot 3 to slot 2), but `TrackerQueue.remove` rewrites only the
entries of elements in front of the removed position, so the index entry for
`4` still reads slot 3 while `4` occupies slot 2 — the index is out of sync
and `position(4)` points past the end of the queue. -/
theorem tracker_remove_back_shift_bug :
    traceC2.1 = some 3 ∧ traceC2.2.size = 3 ∧ traceC2.2.frontIndex = 0 ∧
    traceC2.2.at' 2 = some 4 ∧ rd traceC2.2.arr 2 = some 4 ∧
    mapGet traceC2.2.tracker (some 4) = some 3 ∧
    traceC2.2.position (some 4) = 3 ∧ traceC2.2.at' 3 = none := by decide

/-- C3.  The claim fails on the code: the growth in `traceC3` relocates the
wrapped element `3` from slot 0 to slot 2, but the rebuild loop of
`TrackerQueue._expand` writes `tracker[key(array[i])] = i` for
`i = 0 .. size`, so the entry for `3` is set to the stale slot 0 instead of
the slot 2 it now occupies; `position(3)` consequently returns 2 although
`3` is at logical position 1. -/
theorem tracker_expand_rebuild_bug :
    traceC3.frontIndex = 1 ∧ traceC3.size = 3 ∧ traceC3.arr.length = 4 ∧
    traceC3.at' 1 = some 3 ∧ (traceC3.frontIndex + 1) % traceC3.arr.length = 2 ∧
    mapGet traceC3.tracker (some 3) = some 0 ∧
    traceC3.position (some 3) = 2 ∧ traceC3.at' 2 = some 4 := by decide

/-- C9.  The claim fails on the code: `new Queue([])` makes a zero-capacity
store with `_backIndex = -1`, so the subsequent `push(1)` writes the item to
`array[-1]` (lost to every index read) while still incrementing `_size`;
`front`, `at(0)` and `pop()` all return `undefined`, not the pushed value. -/
theorem empty_iterable_push_bug :
    traceC9.size = 1 ∧ traceC9.arr = [] ∧ traceC9.backIndex = -1 ∧
    traceC9.front = none ∧ traceC9.at' 0 = none ∧ (traceC9.pop).1 = none := by decide

/-- C10.  The claim fails on the code: in `traceC10` the size reaches 0
through `pop` with `_frontIndex = 2` and `_backIndex = 0` (the earlier
`remove(0)` on a window whose front sat at the last slot incremented
`_frontIndex` past the array without a modulus).  The next push writes at
`_backIndex`, where `at(0)` and `back` see it but the raw `front` getter
reads the out-of-range slot 2 and returns `undefined`. -/
theorem empty_reset_front_back_bug :
    traceC10.size = 0 ∧ traceC10.frontIndex = 2 ∧ traceC10.backIndex = 0 ∧
    (traceC10.push (some 4)).front = none ∧
    (traceC10.push (some 4)).at' 0 = some 4 ∧
    (traceC10.push (some 4)).back = some 4 := by decide

/-- C5, counterexample.  The claim as stated fails on the code at the
reachable queue `new Queue([undefined])` and the valid position 0: the stored
element is the value `undefined`, so `remove(0)` takes its absence branch and
removes nothing — the size stays 1 instead of dropping to 0. -/
theorem remove_undefined_counterexample :
    (Queue.fromList [none]).size = 1 ∧
    ((Queue.fromList [none]).remove 0).2.size = 1 ∧
    ((Queue.fromList [none]).remove 0).2 = Queue.fromList [none] := by decide

/-- C7, counterexample.  The claim fails on the code: the absent marker is
the plain value `undefined`, which is a legal element.  Pushing `undefined`
into a fresh queue and then calling `remove(0)` at the (valid) position 0
returns the marker and removes nothing — size stays 1, contradicting
"remove(i) treats it as present, removes it and decrements size". -/
theorem absent_marker_counterexample :
    ((Queue.fromCap 1).push none).size = 1 ∧
    ((Queue.fromCap 1).push none).at' 0 = none ∧
    (((Queue.fromCap 1).push none).remove 0).1 = none ∧
    (((Queue.fromCap 1).push none).remove 0).2.size = 1 := by decide

/-- C8, counterexample.  The claim fails on the code for capacity 0: the
constructor performs no validation of its own and `new Array(0)` is legal, so
construction with the invalid capacity 0 succeeds and produces a (degenerate,
zero-capacity) queue instead of failing fast. -/
theorem zero_capacity_counterexample :
    Queue.construct 0 = Except.ok (Queue.fromCap 0) := rfl

/-- C7, amended.  What actually holds: `at` and `remove` report out-of-range
positions with the sentinel `undefined`, which is *not* distinguishable from
a stored `undefined` — `remove(i)` on a slot holding `undefined` removes
nothing and returns the marker; only for elements different from the marker
does `remove(i)` treat the position as present, return the element and
decrement the size. -/
theorem absent_marker_amended (q : Queue) (i : Nat) :
    (q.at' i = none → q.remove i = (none, q)) ∧
    (∀ v : Int, q.at' i = some v →
      (q.remove i).1 = some v ∧ (q.remove i).2.size = q.size - 1) := by
  constructor
  · intro h
    simp [Queue.remove, h]
  · intro v h
    simp only [Queue.remove, h]
    refine ⟨rfl, ?_⟩
    simp only [reduceCtorEq, if_false]
    split
    · simp [removeShift_size]
    · rfl

/-- Witness for the amended C7 at a concrete input: a queue holding the
number 9 at position 0 has it removed, with the size dropping to 0. -/
theorem absent_marker_amended_witness :
    ((((Queue.fromCap 2).push (some 9)).remove 0).1 = some 9) ∧
    ((((Queue.fromCap 2).push (some 9)).remove 0).2.size = 0) := by
  have h := (absent_marker_amended ((Queue.fromCap 2).push (some 9)) 0).2 9 (by decide)
  exact ⟨h.1, h.2⟩

/-- C8, amended.  What actually holds: a negative requested capacity fails
fast with the descriptive `RangeError` raised by the array allocation itself,
but a requested capacity of 0 (also not a positive integer) is accepted and
yields a zero-capacity queue. -/
theorem construct_validation_amended (n : Int) :
    (n < 0 → Queue.construct n = Except.error "Invalid array length") ∧
    (0 ≤ n → Queue.construct n = Except.ok (Queue.fromCap n.toNat)) := by
  constructor
  · intro h; simp [Queue.construct, h]
  · intro h; simp [Queue.construct, Int.not_lt.mpr h]

/-- Witness for the amended C8 at a concrete input: requesting capacity -3
produces the allocation error. -/
theorem construct_validation_amended_witness :
    Queue.construct (-3) = Except.error "Invalid array length" :=
  (construct_validation_amended (-3)).1 (by decide)

/- ------------------------------------------------------------------ -/
/- FIFO behaviour of push followed by pop (no removals).               -/
/- ------------------------------------------------------------------ -/

theorem rd_append (l l' : List JSVal) (j : Nat) :
    rd (l ++ l') j = if j < l.length then rd l j else rd l' (j - l.length) := by
  induction l generalizing j with
  | nil => simp [rd]
  | cons a l ih =>
    cases j with
    | zero => simp [rd]
    | succ j => simpa [rd, Nat.succ_lt_succ_iff] using ih j

theorem pushPhase_push (q : Queue) (l : List JSVal) (v : JSVal) (h : PushPhase q l) :
    PushPhase (q.push v) (l ++ [v]) := by
  obtain ⟨hf, hlen, hs, hsl, hb, hread⟩ := h
  by_cases hsz : q.size = 0
  · -- empty queue: the item is written at the current back slot 0
    have hl0 : l.length = 0 := by omega
    have hl : l = [] := List.length_eq_zero.mp hl0
    have hb0 : q.backIndex = 0 := by rw [hb, if_pos hl0]
    have hpush : q.push v = { q with arr := jsSet q.arr q.backIndex v, size := q.size + 1 } := by
      rw [Queue.push, if_pos hsz]
    have hlength : (jsSet q.arr q.backIndex v).length = q.arr.length :=
      length_jsSet_of_lt q.arr q.backIndex v (by omega) (by omega)
    subst hl
    rw [hpush]
    refine ⟨hf, ?_, ?_, ?_, ?_, ?_⟩
    · simpa [hlength] using hlen
    · simp [hs]
    · simp [hlength]; omega
    · simp [hb0]
    · intro j hj
      have hj0 : j = 0 := by simpa using hj
      subst hj0
      rw [show (({ q with arr := jsSet q.arr q.backIndex v, size := q.size + 1 } : Queue)).arr
            = jsSet q.arr q.backIndex v from rfl]
      rw [rd_jsSet_of_lt q.arr q.backIndex v (by omega) (by omega) 0]
      simp [hb0, rd]
  · -- non-empty queue
    have hl1 : 1 ≤ l.length := by omega
    have hbv : q.backIndex = (l.length : Int) - 1 := by rw [hb, if_neg (by omega)]
    by_cases hfull : q.size = q.arr.length
    · -- full: expand first; the window starts at slot 0, so no relocation happens
      have hnotlt : ¬ q.backIndex < (q.frontIndex : Int) := by rw [hbv, hf]; omega
      have hexp : q.expand = { q with arr := q.arr ++ List.replicate q.arr.length none } := by
        simp only [Queue.expand]
        rw [if_neg hnotlt]
      have hlen2 : (q.arr ++ List.replicate q.arr.length none).length = 2 * q.arr.length := by
        simp [List.length_append]; omega
      have hmod : (q.backIndex + 1) % (((q.arr ++ List.replicate q.arr.length none).length : Nat) : Int)
          = (l.length : Int) := by
        rw [hbv, hlen2]
        have he : ((l.length : Int) - 1 + 1) = (l.length : Int) := by ring
        rw [he, Int.emod_eq_of_lt (by omega) (by push_cast; omega)]
      have hpush : q.push v = { q with
          arr := jsSet (q.arr ++ List.replicate q.arr.length none) (l.length : Int) v,
          backIndex := (l.length : Int), size := q.size + 1 } := by
        rw [Queue.push, if_neg hsz]
        simp only [if_pos hfull, hexp, hmod]
      have htn : ((l.length : Int)).toNat = l.length := by omega
      have hlt : ((l.length : Int)).toNat < (q.arr ++ List.replicate q.arr.length none).length := by
        rw [htn, hlen2]; omega
      have hlength : (jsSet (q.arr ++ List.replicate q.arr.length none) (l.length : Int) v).length
          = 2 * q.arr.length := by
        rw [length_jsSet_of_lt _ _ _ (by omega) hlt, hlen2]
      rw [hpush]
      refine ⟨hf, ?_, ?_, ?_, ?_, ?_⟩
      · simp [hlength]; omega
      · simp [hs]
      · simp [hlength]; omega
      · simp
      · intro j hj
        simp only [List.length_append, List.length_cons, List.length_nil] at hj
        show rd (jsSet (q.arr ++ List.replicate q.arr.length none) (l.length : Int) v) j = rd (l ++ [v]) j
        rw [rd_jsSet_of_lt _ _ _ (by omega) hlt j, htn, rd_append l [v] j]
        by_cases hjl : j = l.length
        · simp [hjl, rd]
        · have hjl2 : j < l.length := by omega
          rw [if_neg hjl, if_pos hjl2, rd_pad]
          exact hread j hjl2
    · -- not full: no expansion
      have hslt : q.size < q.arr.length := by omega
      have hmod : (q.backIndex + 1) % ((q.arr.length : Nat) : Int) = (l.length : Int) := by
        rw [hbv]
        have he : ((l.length : Int) - 1 + 1) = (l.length : Int) := by ring
        rw [he, Int.emod_eq_of_lt (by omega) (by omega)]
      have hpush : q.push v = { q with
          arr := jsSet q.arr (l.length : Int) v,
          backIndex := (l.length : Int), size := q.size + 1 } := by
        rw [Queue.push, if_neg hsz]
        simp only [if_neg hfull, hmod]
      have htn : ((l.length : Int)).toNat = l.length := by omega
      have hlt : ((l.length : Int)).toNat < q.arr.length := by rw [htn]; omega
      have hlength : (jsSet q.arr (l.length : Int) v).length = q.arr.length :=
        length_jsSet_of_lt _ _ _ (by omega) hlt
      rw [hpush]
      refine ⟨hf, ?_, ?_, ?_, ?_, ?_⟩
      · simp [hlength]; omega
      · simp [hs]
      · simp [hlength]; omega
      · simp
      · intro j hj
        simp only [List.length_append, List.length_cons, List.length_nil] at hj
        show rd (jsSet q.arr (l.length : Int) v) j = rd (l ++ [v]) j
        rw [rd_jsSet_of_lt _ _ _ (by omega) hlt j, htn, rd_append l [v] j]
        by_cases hjl : j = l.length
        · simp [hjl, rd]
        · have hjl2 : j < l.length := by omega
          rw [if_neg hjl, if_pos hjl2]
          exact hread j hjl2

theorem pushAll_pushPhase (vs : List JSVal) (q : Queue) (l : List JSVal) (h : PushPhase q l) :
    PushPhase (q.pushAll vs) (l ++ vs) := by
  induction vs generalizing q l with
  | nil => simpa [Queue.pushAll] using h
  | cons v vs ih =>
    have : q.pushAll (v :: vs) = (q.push v).pushAll vs := rfl
    rw [this]
    have h2 := ih (q.push v) (l ++ [v]) (pushPhase_push q l v h)
    simpa using h2

theorem pushPhase_fromCap (n : Nat) (hn : 1 ≤ n) : PushPhase (Queue.fromCap n) [] := by
  refine ⟨rfl, by simpa [Queue.fromCap], rfl, by simp [Queue.fromCap], rfl, by simp⟩

theorem popDrop_spec (q : Queue) (h0 : q.frontIndex = 0) (hlen : q.size ≤ q.arr.length)
    (k : Nat) (hk : k < q.size) :
    (q.popDrop k).frontIndex = k ∧ (q.popDrop k).size = q.size - k ∧
    (q.popDrop k).arr = q.arr := by
  induction k with
  | zero => exact ⟨h0, rfl, rfl⟩
  | succ k ih =>
    obtain ⟨hf, hs, ha⟩ := ih (by omega)
    have hstep : q.popDrop (k + 1) = ((q.popDrop k).pop).2 := rfl
    have hsz : (q.popDrop k).size ≠ 0 := by omega
    have hsz1 : 1 < (q.popDrop k).size := by omega
    rw [hstep, Queue.pop, if_pos hsz]
    refine ⟨?_, by simp; omega, by simpa using ha⟩
    simp only [if_pos hsz1, hf, ha]
    exact Nat.mod_eq_of_lt (by omega)

/-- C6.  FIFO order: for a queue built with a positive integer capacity and
any sequence of pushed values (no removals), the `k`-th `pop()` returns the
`k`-th pushed value. -/
theorem fifo_order (n : Nat) (hn : 1 ≤ n) (vs : List JSVal) (k : Nat) (hk : k < vs.length) :
    Queue.kthPop (Queue.pushAll (Queue.fromCap n) vs) k = rd vs k := by
  have hpp := pushAll_pushPhase vs (Queue.fromCap n) [] (pushPhase_fromCap n hn)
  simp only [List.nil_append] at hpp
  obtain ⟨hf, hlen, hs, hsl, hb, hread⟩ := hpp
  obtain ⟨pf, ps, pa⟩ := popDrop_spec _ hf hsl k (by omega)
  have hsz : ((Queue.pushAll (Queue.fromCap n) vs).popDrop k).size ≠ 0 := by omega
  rw [Queue.kthPop, Queue.pop, if_pos hsz]
  simp only [pf, pa]
  exact hread k hk

/-- Witness for C6 at a concrete input: pushing 5, 6, 7 into a fresh
capacity-2 queue (which forces one growth) and popping three times returns
7 on the third pop. -/
theorem fifo_order_witness :
    Queue.kthPop (Queue.pushAll (Queue.fromCap 2) [some 5, some 6, some 7]) 2 = some 7 :=
  fifo_order 2 (by decide) [some 5, some 6, some 7] 2 (by decide)

/- ------------------------------------------------------------------ -/
/- The structural invariant holds in every reachable state.           -/
/- ------------------------------------------------------------------ -/

theorem length_jsSet_inv (l : List JSVal) (i : Int) (v : JSVal)
    (_h1 : -1 ≤ i) (h2 : i < (l.length : Int)) : (jsSet l i v).length = l.length := by
  by_cases h : i < 0
  · rw [jsSet_neg l i v h]
  · exact length_jsSet_of_lt l i v (by omega) (by omega)

theorem expand_nowrap (q : Queue) (h : ¬ q.backIndex < (q.frontIndex : Int)) :
    q.expand = { q with arr := q.arr ++ List.replicate q.arr.length none } := by
  simp only [Queue.expand]
  rw [if_neg h]

theorem expand_wrap (q : Queue) (h : q.backIndex < (q.frontIndex : Int)) :
    q.expand = { q with
      arr := jsCopyWithin (q.arr ++ List.replicate q.arr.length none)
        q.arr.length 0 (q.backIndex + 1).toNat,
      backIndex := q.backIndex + q.arr.length } := by
  simp only [Queue.expand]
  rw [if_pos h, if_neg (by simp [Queue.expandGuard])]

theorem at'_some_lt {q : Queue} {i : Nat} {v : Int} (h : q.at' i = some v) : i < q.size := by
  by_contra hc
  rw [Queue.at', if_neg hc] at h
  exact Option.noConfusion h

theorem qinv_clear (q : Queue) (h : QInv q) : QInv q.clear := by
  obtain ⟨h1, h2, h3, h4, h5, h6, h7⟩ := h
  unfold QInv Queue.clear
  dsimp only
  omega

theorem qinv_fromCap (n : Nat) (hn : 1 ≤ n) : QInv (Queue.fromCap n) := by
  unfold QInv Queue.fromCap
  simp only [List.length_replicate]
  omega

theorem qinv_fromList (l : List JSVal) (hl : l ≠ []) : QInv (Queue.fromList l) := by
  have : 1 ≤ l.length := List.length_pos.mpr hl
  unfold QInv Queue.fromList
  dsimp only
  omega

theorem qinv_pop (q : Queue) (h : QInv q) : QInv (q.pop).2 := by
  obtain ⟨h1, h2, h3, h4, h5, h6, h7⟩ := h
  by_cases hsz : q.size ≠ 0
  · rw [Queue.pop, if_pos hsz]
    by_cases hs1 : 1 < q.size
    · have hL2 : 2 ≤ q.arr.length := by omega
      have hmod : (q.frontIndex + 1) % q.arr.length =
          if q.frontIndex + 1 < q.arr.length then q.frontIndex + 1
          else q.frontIndex + 1 - q.arr.length := mod_window (by omega)
      have h6' := h6 (by omega)
      unfold QInv
      dsimp only
      rw [if_pos hs1, hmod]
      split_ifs with hw <;> omega
    · have h6' := h6 (by omega)
      unfold QInv
      dsimp only
      rw [if_neg hs1]
      omega
  · rw [Queue.pop, if_neg hsz]
    exact ⟨h1, h2, h3, h4, h5, h6, h7⟩

theorem push_nonempty (q : Queue) (v : JSVal) (hsz : ¬ q.size = 0) (hnotfull : ¬ q.size = q.arr.length) :
    q.push v = { q with arr := jsSet q.arr ((q.backIndex + 1) % (q.arr.length : Int)) v,
                        backIndex := (q.backIndex + 1) % (q.arr.length : Int),
                        size := q.size + 1 } := by
  rw [Queue.push, if_neg hsz, if_neg hnotfull]

theorem push_full (q : Queue) (v : JSVal) (hsz : ¬ q.size = 0) (hfull : q.size = q.arr.length) :
    q.push v = { q.expand with
        arr := jsSet q.expand.arr ((q.expand.backIndex + 1) % (q.expand.arr.length : Int)) v,
        backIndex := (q.expand.backIndex + 1) % (q.expand.arr.length : Int),
        size := q.expand.size + 1 } := by
  rw [Queue.push, if_neg hsz, if_pos hfull]

theorem qinv_mk (arr : List JSVal) (f : Nat) (b : Int) (s L : Nat)
    (hL : arr.length = L)
    (hc : 1 ≤ L ∧ s ≤ L ∧ f ≤ L ∧ -1 ≤ b ∧ b < (L : Int) ∧
      (0 < s → (b = (f : Int) + s - 1 ∨ b = (f : Int) + s - 1 - L)) ∧
      (s = 0 → (b = (f : Int) ∨ b = (f : Int) - L))) :
    QInv ⟨arr, f, b, s⟩ := by
  unfold QInv
  dsimp only
  rw [hL]
  exact hc

theorem qinv_push (q : Queue) (v : JSVal) (h : QInv q) : QInv (q.push v) := by
  obtain ⟨h1, h2, h3, h4, h5, h6, h7⟩ := h
  by_cases hsz : q.size = 0
  · have h7' := h7 (by omega)
    rw [Queue.push, if_pos hsz]
    exact qinv_mk _ _ _ _ q.arr.length (length_jsSet_inv q.arr q.backIndex v h4 h5) (by omega)
  · have h6' := h6 (by omega)
    by_cases hfull : q.size = q.arr.length
    · rw [push_full q v hsz hfull]
      by_cases hw : q.backIndex < (q.frontIndex : Int)
      · have hb : q.backIndex = (q.frontIndex : Int) - 1 := by omega
        rw [expand_wrap q hw]
        dsimp only
        have hlen3 : (jsCopyWithin (q.arr ++ List.replicate q.arr.length none)
            q.arr.length 0 (q.backIndex + 1).toNat).length = 2 * q.arr.length := by
          rw [length_jsCopyWithin, List.length_append, List.length_replicate]; omega
        rw [hlen3]
        by_cases hfL : q.frontIndex < q.arr.length
        · have hmod : (q.backIndex + (q.arr.length : Int) + 1) % ((2 * q.arr.length : Nat) : Int)
              = (q.frontIndex : Int) + (q.arr.length : Int) := by
            rw [hb]
            rw [Int.emod_eq_of_lt (by omega) (by push_cast; omega)]
            ring
          rw [hmod]
          refine qinv_mk _ _ _ _ (2 * q.arr.length) ?_ (by omega)
          rw [length_jsSet_of_lt _ _ _ (by omega) (by rw [hlen3]; omega), hlen3]
        · have hfL2 : q.frontIndex = q.arr.length := by omega
          have hmod : (q.backIndex + (q.arr.length : Int) + 1) % ((2 * q.arr.length : Nat) : Int)
              = 0 := by
            rw [hb, hfL2]
            have he : ((q.arr.length : Int) - 1 + (q.arr.length : Int) + 1)
                = ((2 * q.arr.length : Nat) : Int) := by push_cast; ring
            rw [he, Int.emod_self]
          rw [hmod]
          refine qinv_mk _ _ _ _ (2 * q.arr.length) ?_ (by omega)
          rw [length_jsSet_of_lt _ _ _ (by omega) (by rw [hlen3]; omega), hlen3]
      · rw [expand_nowrap q hw]
        dsimp only
        have hlen2 : (q.arr ++ List.replicate q.arr.length none).length = 2 * q.arr.length := by
          rw [List.length_append, List.length_replicate]; omega
        rw [hlen2]
        have hmod : (q.backIndex + 1) % ((2 * q.arr.length : Nat) : Int)
            = q.backIndex + 1 := by
          rw [Int.emod_eq_of_lt (by omega) (by push_cast; omega)]
        rw [hmod]
        refine qinv_mk _ _ _ _ (2 * q.arr.length) ?_ (by omega)
        rw [length_jsSet_of_lt _ _ _ (by omega) (by rw [hlen2]; omega), hlen2]
    · rw [push_nonempty q v hsz hfull]
      by_cases hwrap : q.backIndex + 1 < (q.arr.length : Int)
      · have hmod : (q.backIndex + 1) % ((q.arr.length : Nat) : Int) = q.backIndex + 1 := by
          rw [Int.emod_eq_of_lt (by omega) (by omega)]
        rw [hmod]
        refine qinv_mk _ _ _ _ q.arr.length ?_ (by omega)
        rw [length_jsSet_of_lt _ _ _ (by omega) (by omega)]
      · have hmod : (q.backIndex + 1) % ((q.arr.length : Nat) : Int) = 0 := by
          have he : q.backIndex + 1 = ((q.arr.length : Nat) : Int) := by omega
          rw [he, Int.emod_self]
        rw [hmod]
        refine qinv_mk _ _ _ _ q.arr.length ?_ (by omega)
        rw [length_jsSet_of_lt _ _ _ (by omega) (by omega)]

theorem qinv_remove (q : Queue) (index : Nat) (h : QInv q) : QInv (q.remove index).2 := by
  obtain ⟨h1, h2, h3, h4, h5, h6, h7⟩ := h
  rcases hv : q.at' index with _ | v
  · have hr : (q.remove index).2 = q := by simp [Queue.remove, hv]
    rw [hr]
    exact ⟨h1, h2, h3, h4, h5, h6, h7⟩
  · have hlt : index < q.size := at'_some_lt hv
    have h6' := h6 (by omega)
    by_cases hs1 : 1 < q.size
    · have hrw : (q.remove index).2 = { q.removeShift index with size := q.size - 1 } := by
        simp only [Queue.remove, hv, reduceCtorEq, if_false, if_pos hs1]
        rw [removeShift_size]
      rw [hrw]
      simp only [Queue.removeShift]
      have hmod : (q.frontIndex + index) % q.arr.length =
          if q.frontIndex + index < q.arr.length then q.frontIndex + index
          else q.frontIndex + index - q.arr.length := mod_window (by omega)
      rw [hmod]
      by_cases hc1 : (q.frontIndex : Int) ≤ q.backIndex
      · -- non-wrapped window: backIndex = frontIndex + size - 1 < length
        have hbN : q.backIndex = (q.frontIndex : Int) + q.size - 1 := by omega
        rw [if_pos (by omega : q.frontIndex + index < q.arr.length), if_pos hc1]
        split_ifs with hc2
        · dsimp only
          exact qinv_mk _ _ _ _ q.arr.length (length_jsCopyWithin _ _ _ _) (by omega)
        · dsimp only
          exact qinv_mk _ _ _ _ q.arr.length (length_jsCopyWithin _ _ _ _) (by omega)
      · -- wrapped window: backIndex = frontIndex + size - 1 - length
        have hbW : q.backIndex = (q.frontIndex : Int) + q.size - 1 - q.arr.length := by omega
        rw [if_neg hc1]
        by_cases hin : q.frontIndex + index < q.arr.length
        · rw [if_pos hin, if_pos (by omega : q.frontIndex ≤ q.frontIndex + index)]
          dsimp only
          exact qinv_mk _ _ _ _ q.arr.length (length_jsCopyWithin _ _ _ _) (by omega)
        · rw [if_neg hin,
            if_neg (by omega : ¬ q.frontIndex ≤ q.frontIndex + index - q.arr.length)]
          dsimp only
          exact qinv_mk _ _ _ _ q.arr.length (length_jsCopyWithin _ _ _ _) (by omega)
    · have hs0 : q.size = 1 := by omega
      have hrw : (q.remove index).2 = { q with size := q.size - 1 } := by
        simp only [Queue.remove, hv, reduceCtorEq, if_false, if_neg hs1]
      rw [hrw]
      exact qinv_mk _ _ _ _ q.arr.length rfl (by omega)

theorem reachable_inv (q : Queue) (h : Reachable q) : QInv q := by
  induction h with
  | fromCap n hn => exact qinv_fromCap n hn
  | fromList l hl => exact qinv_fromList l hl
  | push q v _ ih => exact qinv_push q v ih
  | pop q _ ih => exact qinv_pop q ih
  | remove q i _ ih => exact qinv_remove q i ih
  | clear q _ ih => exact qinv_clear q ih

/- ------------------------------------------------------------------ -/
/- Content correctness of growth (C4) and removal (C5).               -/
/- ------------------------------------------------------------------ -/

theorem at'_eq_rd (q : Queue) (i : Nat) (h : i < q.size) :
    q.at' i = rd q.arr ((q.frontIndex + i) % q.arr.length) := by
  rw [Queue.at', if_pos h, Queue.atRaw]

theorem push_full_spec (q : Queue) (hq : QInv q) (hfull : q.size = q.arr.length) (v : JSVal) :
    (q.push v).arr.length = 2 * q.arr.length ∧ (q.push v).size = q.size + 1 ∧
    (q.push v).at' q.size = v ∧ ∀ i, i < q.size → (q.push v).at' i = q.at' i := by
  obtain ⟨h1, h2, h3, h4, h5, h6, h7⟩ := hq
  have hsz : ¬ q.size = 0 := by omega
  have h6' := h6 (by omega)
  have hpadlen : (q.arr ++ List.replicate q.arr.length none).length = 2 * q.arr.length := by
    rw [List.length_append, List.length_replicate]; omega
  rw [push_full q v hsz hfull]
  by_cases hw : q.backIndex < (q.frontIndex : Int)
  · -- wrapped full window: backIndex = frontIndex - 1, prefix [0, frontIndex) relocates
    have hb : q.backIndex = (q.frontIndex : Int) - 1 := by omega
    rw [expand_wrap q hw]
    dsimp only
    have htn : (q.backIndex + 1).toNat = q.frontIndex := by omega
    have hlen3 : (jsCopyWithin (q.arr ++ List.replicate q.arr.length none)
        q.arr.length 0 (q.backIndex + 1).toNat).length = 2 * q.arr.length := by
      rw [length_jsCopyWithin, hpadlen]
    rw [hlen3]
    have hrd3 : ∀ x : Nat, rd (jsCopyWithin (q.arr ++ List.replicate q.arr.length none)
        q.arr.length 0 (q.backIndex + 1).toNat) x =
        if q.arr.length ≤ x ∧ x < q.arr.length + q.frontIndex then rd q.arr (x - q.arr.length)
        else rd q.arr x := by
      intro x
      rw [htn, rd_jsCopyWithin _ _ _ _ x (by rw [hpadlen]; omega) (by rw [hpadlen]; omega)
        (by rw [hpadlen]; omega)]
      rw [hpadlen]
      have hcnt : min (q.frontIndex - 0) (2 * q.arr.length - q.arr.length) = q.frontIndex := by
        omega
      rw [hcnt]
      by_cases hx : q.arr.length ≤ x ∧ x < q.arr.length + q.frontIndex
      · rw [if_pos hx, if_pos hx, rd_pad]
        congr 1
        omega
      · rw [if_neg hx, if_neg hx, rd_pad]
    by_cases hfL : q.frontIndex < q.arr.length
    · -- front strictly inside: new back slot is frontIndex + oldLength
      have hmod : (q.backIndex + (q.arr.length : Int) + 1) % ((2 * q.arr.length : Nat) : Int)
          = (q.frontIndex : Int) + (q.arr.length : Int) := by
        rw [Int.emod_eq_of_lt (by omega) (by push_cast; omega)]
        omega
      rw [hmod]
      have hsetlen : (jsSet (jsCopyWithin (q.arr ++ List.replicate q.arr.length none)
          q.arr.length 0 (q.backIndex + 1).toNat)
          ((q.frontIndex : Int) + (q.arr.length : Int)) v).length = 2 * q.arr.length := by
        rw [length_jsSet_of_lt _ _ _ (by omega) (by rw [hlen3]; omega), hlen3]
      have hrdS : ∀ x : Nat, rd (jsSet (jsCopyWithin (q.arr ++ List.replicate q.arr.length none)
          q.arr.length 0 (q.backIndex + 1).toNat)
          ((q.frontIndex : Int) + (q.arr.length : Int)) v) x =
          if x = q.frontIndex + q.arr.length then v
          else rd (jsCopyWithin (q.arr ++ List.replicate q.arr.length none)
            q.arr.length 0 (q.backIndex + 1).toNat) x := by
        intro x
        rw [rd_jsSet_of_lt _ _ _ (by omega) (by rw [hlen3]; omega) x]
        have htn2 : ((q.frontIndex : Int) + (q.arr.length : Int)).toNat
            = q.frontIndex + q.arr.length := by omega
        rw [htn2]
      refine ⟨hsetlen, rfl, ?_, ?_⟩
      · rw [at'_eq_rd _ _ (by dsimp only; omega)]
        dsimp only
        rw [hsetlen, Nat.mod_eq_of_lt (by omega), hrdS, if_pos (by omega)]
      · intro i hi
        rw [at'_eq_rd _ _ (by dsimp only; omega)]
        dsimp only
        rw [hsetlen, Nat.mod_eq_of_lt (show q.frontIndex + i < 2 * q.arr.length by omega)]
        rw [hrdS, if_neg (by omega), hrd3]
        rw [at'_eq_rd q i (by omega)]
        rw [mod_window (show q.frontIndex + i < 2 * q.arr.length by omega)]
        by_cases hx : q.frontIndex + i < q.arr.length
        · rw [if_neg (by omega), if_pos hx]
        · rw [if_pos (by omega), if_neg hx]
    · -- frontIndex = oldLength: the new back slot wraps to 0
      have hfL2 : q.frontIndex = q.arr.length := by omega
      have hmod : (q.backIndex + (q.arr.length : Int) + 1) % ((2 * q.arr.length : Nat) : Int)
          = 0 := by
        have he : q.backIndex + (q.arr.length : Int) + 1 = ((2 * q.arr.length : Nat) : Int) := by
          push_cast; omega
        rw [he, Int.emod_self]
      rw [hmod]
      have hsetlen : (jsSet (jsCopyWithin (q.arr ++ List.replicate q.arr.length none)
          q.arr.length 0 (q.backIndex + 1).toNat) 0 v).length = 2 * q.arr.length := by
        rw [length_jsSet_of_lt _ _ _ (by omega) (by rw [hlen3]; omega), hlen3]
      have hrdS : ∀ x : Nat, rd (jsSet (jsCopyWithin (q.arr ++ List.replicate q.arr.length none)
          q.arr.length 0 (q.backIndex + 1).toNat) 0 v) x =
          if x = 0 then v
          else rd (jsCopyWithin (q.arr ++ List.replicate q.arr.length none)
            q.arr.length 0 (q.backIndex + 1).toNat) x := by
        intro x
        rw [rd_jsSet_of_lt _ _ _ (by omega) (by rw [hlen3]; omega) x]
        rfl
      refine ⟨hsetlen, rfl, ?_, ?_⟩
      · rw [at'_eq_rd _ _ (by dsimp only; omega)]
        dsimp only
        rw [hsetlen, show q.frontIndex + q.size = 2 * q.arr.length by omega, Nat.mod_self,
          hrdS, if_pos rfl]
      · intro i hi
        rw [at'_eq_rd _ _ (by dsimp only; omega)]
        dsimp only
        rw [hsetlen, Nat.mod_eq_of_lt (show q.frontIndex + i < 2 * q.arr.length by omega)]
        rw [hrdS, if_neg (by omega), hrd3, if_pos (by omega)]
        rw [at'_eq_rd q i (by omega)]
        rw [mod_window (show q.frontIndex + i < 2 * q.arr.length by omega), if_neg (by omega)]
  · -- full window already linear: frontIndex = 0, no relocation
    have hf0 : q.frontIndex = 0 := by omega
    have hbL : q.backIndex = (q.arr.length : Int) - 1 := by omega
    rw [expand_nowrap q hw]
    dsimp only
    rw [hpadlen]
    have hmod : (q.backIndex + 1) % ((2 * q.arr.length : Nat) : Int) = (q.arr.length : Int) := by
      have he : q.backIndex + 1 = (q.arr.length : Int) := by omega
      rw [he, Int.emod_eq_of_lt (by omega) (by push_cast; omega)]
    rw [hmod]
    have hsetlen : (jsSet (q.arr ++ List.replicate q.arr.length none)
        ((q.arr.length : Nat) : Int) v).length = 2 * q.arr.length := by
      rw [length_jsSet_of_lt _ _ _ (by omega) (by rw [hpadlen]; omega), hpadlen]
    have hrdS : ∀ x : Nat, rd (jsSet (q.arr ++ List.replicate q.arr.length none)
        ((q.arr.length : Nat) : Int) v) x =
        if x = q.arr.length then v else rd q.arr x := by
      intro x
      rw [rd_jsSet_of_lt _ _ _ (by omega) (by rw [hpadlen]; omega) x]
      have htn2 : ((q.arr.length : Nat) : Int).toNat = q.arr.length := by omega
      rw [htn2]
      by_cases hx : x = q.arr.length
      · rw [if_pos hx, if_pos hx]
      · rw [if_neg hx, if_neg hx, rd_pad]
    refine ⟨hsetlen, rfl, ?_, ?_⟩
    · rw [at'_eq_rd _ _ (by dsimp only; omega)]
      dsimp only
      rw [hsetlen, Nat.mod_eq_of_lt (by omega), hrdS, if_pos (by omega)]
    · intro i hi
      rw [at'_eq_rd _ _ (by dsimp only; omega)]
      dsimp only
      rw [hsetlen, Nat.mod_eq_of_lt (show q.frontIndex + i < 2 * q.arr.length by omega)]
      rw [hrdS, if_neg (by omega)]
      rw [at'_eq_rd q i (by omega), Nat.mod_eq_of_lt (by omega)]

theorem remove_spec (q : Queue) (hq : QInv q) (index : Nat) (v : Int)
    (hv : q.at' index = some v) :
    (q.remove index).1 = some v ∧ (q.remove index).2.size = q.size - 1 ∧
    ∀ j, j < q.size - 1 →
      (q.remove index).2.at' j = if j < index then q.at' j else q.at' (j + 1) := by
  obtain ⟨h1, h2, h3, h4, h5, h6, h7⟩ := hq
  have hlt : index < q.size := at'_some_lt hv
  have h6' := h6 (by omega)
  have hfst : (q.remove index).1 = some v := by
    simp only [Queue.remove, hv, reduceCtorEq, if_false]
  by_cases hs1 : 1 < q.size
  · have hrw : (q.remove index).2 = { q.removeShift index with size := q.size - 1 } := by
      simp only [Queue.remove, hv, reduceCtorEq, if_false, if_pos hs1]
      rw [removeShift_size]
    refine ⟨hfst, by rw [hrw], ?_⟩
    intro j hj
    rw [hrw]
    simp only [Queue.removeShift]
    by_cases hc1 : (q.frontIndex : Int) ≤ q.backIndex
    · -- non-wrapped window: backIndex = frontIndex + size - 1 < length
      have hbN : q.backIndex = (q.frontIndex : Int) + q.size - 1 := by omega
      have hfs : q.frontIndex + q.size ≤ q.arr.length := by omega
      rw [Nat.mod_eq_of_lt (show q.frontIndex + index < q.arr.length by omega), if_pos hc1]
      by_cases hc2 : 2 * ((q.frontIndex + index : Nat) : Int) < (q.frontIndex : Int) + q.backIndex
      · -- shift the front block forward
        rw [if_pos hc2, at'_eq_rd _ _ (by dsimp only; omega)]
        dsimp only
        rw [length_jsCopyWithin,
          Nat.mod_eq_of_lt (show q.frontIndex + 1 + j < q.arr.length by omega),
          rd_jsCopyWithin _ _ _ _ _ (by omega) (by omega) (by omega),
          show min (q.frontIndex + index - q.frontIndex)
            (q.arr.length - (q.frontIndex + 1)) = index by omega]
        by_cases hji : j < index
        · rw [if_pos ⟨by omega, by omega⟩, if_pos hji, at'_eq_rd q j (by omega),
            Nat.mod_eq_of_lt (by omega)]
          congr 1
          omega
        · rw [if_neg (by omega), if_neg hji, at'_eq_rd q (j + 1) (by omega),
            Nat.mod_eq_of_lt (by omega)]
          congr 1
          omega
      · -- shift the back block backward
        have htn : (q.backIndex + 1).toNat = q.frontIndex + q.size := by omega
        rw [if_neg hc2, at'_eq_rd _ _ (by dsimp only; omega)]
        dsimp only
        rw [length_jsCopyWithin, htn,
          Nat.mod_eq_of_lt (show q.frontIndex + j < q.arr.length by omega),
          rd_jsCopyWithin _ _ _ _ _ (by omega) (by omega) (by omega),
          show min (q.frontIndex + q.size - (q.frontIndex + index + 1))
            (q.arr.length - (q.frontIndex + index)) = q.size - index - 1 by omega]
        by_cases hji : j < index
        · rw [if_neg (by omega), if_pos hji, at'_eq_rd q j (by omega),
            Nat.mod_eq_of_lt (by omega)]
        · rw [if_pos ⟨by omega, by omega⟩, if_neg hji, at'_eq_rd q (j + 1) (by omega),
            Nat.mod_eq_of_lt (by omega)]
          congr 1
          omega
    · -- wrapped window: backIndex = frontIndex + size - 1 - length
      have hbW : q.backIndex = (q.frontIndex : Int) + q.size - 1 - q.arr.length := by omega
      have hfsL : q.arr.length ≤ q.frontIndex + q.size := by omega
      rw [mod_window (show q.frontIndex + index < 2 * q.arr.length by omega), if_neg hc1]
      by_cases hin : q.frontIndex + index < q.arr.length
      · -- target in the head run: shift the front block forward
        rw [if_pos hin, if_pos (show q.frontIndex ≤ q.frontIndex + index by omega),
          at'_eq_rd _ _ (by dsimp only; omega)]
        dsimp only
        rw [length_jsCopyWithin]
        by_cases hji : j < index
        · rw [Nat.mod_eq_of_lt (show q.frontIndex + 1 + j < q.arr.length by omega),
            rd_jsCopyWithin _ _ _ _ _ (by omega) (by omega) (by omega),
            show min (q.frontIndex + index - q.frontIndex)
              (q.arr.length - (q.frontIndex + 1)) = index by omega,
            if_pos ⟨by omega, by omega⟩, if_pos hji, at'_eq_rd q j (by omega),
            Nat.mod_eq_of_lt (by omega)]
          congr 1
          omega
        · by_cases hcase : q.frontIndex + 1 + j < q.arr.length
          · rw [Nat.mod_eq_of_lt hcase,
              rd_jsCopyWithin _ _ _ _ _ (by omega) (by omega) (by omega),
              show min (q.frontIndex + index - q.frontIndex)
                (q.arr.length - (q.frontIndex + 1)) = index by omega,
              if_neg (by omega), if_neg hji, at'_eq_rd q (j + 1) (by omega),
              Nat.mod_eq_of_lt (by omega)]
            congr 1
            omega
          · have hx : (q.frontIndex + 1 + j) % q.arr.length
                = q.frontIndex + 1 + j - q.arr.length := by
              rw [mod_window (by omega), if_neg hcase]
            rw [hx, rd_jsCopyWithin _ _ _ _ _ (by omega) (by omega) (by omega),
              show min (q.frontIndex + index - q.frontIndex)
                (q.arr.length - (q.frontIndex + 1)) = index by omega,
              if_neg (by omega), if_neg hji, at'_eq_rd q (j + 1) (by omega)]
            have hx2 : (q.frontIndex + (j + 1)) % q.arr.length
                = q.frontIndex + 1 + j - q.arr.length := by
              rw [mod_window (by omega), if_neg (by omega)]
              omega
            rw [hx2]
      · -- target in the wrapped tail: shift the tail block backward
        rw [if_neg hin,
          if_neg (show ¬ q.frontIndex ≤ q.frontIndex + index - q.arr.length by omega),
          at'_eq_rd _ _ (by dsimp only; omega)]
        have htn : (q.backIndex + 1).toNat = q.frontIndex + q.size - q.arr.length := by omega
        dsimp only
        rw [length_jsCopyWithin, htn]
        have hcnt : min ((q.frontIndex + q.size - q.arr.length)
              - (q.frontIndex + index - q.arr.length + 1))
            (q.arr.length - (q.frontIndex + index - q.arr.length))
            = q.size - index - 1 := by omega
        by_cases hji : j < index
        · by_cases hcase : q.frontIndex + j < q.arr.length
          · rw [Nat.mod_eq_of_lt hcase,
              rd_jsCopyWithin _ _ _ _ _ (by omega) (by omega) (by omega), hcnt,
              if_neg (by omega), if_pos hji, at'_eq_rd q j (by omega),
              Nat.mod_eq_of_lt hcase]
          · have hx : (q.frontIndex + j) % q.arr.length
                = q.frontIndex + j - q.arr.length := by
              rw [mod_window (by omega), if_neg hcase]
            rw [hx, rd_jsCopyWithin _ _ _ _ _ (by omega) (by omega) (by omega), hcnt,
              if_neg (by omega), if_pos hji, at'_eq_rd q j (by omega), hx]
        · have hx : (q.frontIndex + j) % q.arr.length
              = q.frontIndex + j - q.arr.length := by
            rw [mod_window (by omega), if_neg (by omega)]
          rw [hx, rd_jsCopyWithin _ _ _ _ _ (by omega) (by omega) (by omega), hcnt,
            if_pos ⟨by omega, by omega⟩, if_neg hji, at'_eq_rd q (j + 1) (by omega)]
          have hx2 : (q.frontIndex + (j + 1)) % q.arr.length
              = q.frontIndex + j + 1 - q.arr.length := by
            rw [mod_window (by omega), if_neg (by omega)]
            omega
          rw [hx2]
          congr 1
          omega
  · have hrw : (q.remove index).2 = { q with size := q.size - 1 } := by
      simp only [Queue.remove, hv, reduceCtorEq, if_false, if_neg hs1]
    exact ⟨hfst, by rw [hrw], fun j hj => absurd hj (by omega)⟩

/-- C4.  For every reachable full queue (any wrap offset), pushing one more
element doubles the store and preserves every existing element at its logical
position: `at(i)` is unchanged for all `i < old size`, and the new element
lands at position `old size`.  (The inner guard of `_expand` reads the
nonexistent `this.backIndex` and is constantly false, but the relocation
branch it always selects — moving the wrapped prefix to the appended space —
is correct for every full window.) -/
theorem growth_preserves_elements (q : Queue) (h : Reachable q)
    (hfull : q.size = q.arr.length) (v : JSVal) :
    (q.push v).arr.length = 2 * q.arr.length ∧ (q.push v).size = q.size + 1 ∧
    (q.push v).at' q.size = v ∧ ∀ i, i < q.size → (q.push v).at' i = q.at' i :=
  push_full_spec q (reachable_inv q h) hfull v

/-- Witness for C4 at a concrete input: a full wrapped window of capacity 2
(`frontIndex = 1`, `backIndex = 0`) grown by a push to capacity 4 with its
front element unchanged. -/
theorem growth_preserves_elements_witness :
    ((((((Queue.fromCap 2).push (some 1)).push (some 2)).pop).2.push (some 3)).push
        (some 9)).arr.length = 4 ∧
    ((((((Queue.fromCap 2).push (some 1)).push (some 2)).pop).2.push (some 3)).push
        (some 9)).at' 0
      = (((((Queue.fromCap 2).push (some 1)).push (some 2)).pop).2.push (some 3)).at' 0 := by
  have hr : Reachable (((((Queue.fromCap 2).push (some 1)).push (some 2)).pop).2.push (some 3)) :=
    Reachable.push _ _ (Reachable.pop _ (Reachable.push _ _ (Reachable.push _ _
      (Reachable.fromCap 2 (by omega)))))
  have h := growth_preserves_elements _ hr (by decide) (some 9)
  exact ⟨h.1, h.2.2.2 0 (by decide)⟩

/-- C5, amended.  For every reachable queue and valid position `index`
*holding an element other than the `undefined` marker*, `remove(index)`
returns that element, decrements the size, and shifts every element after
`index` one position earlier while keeping the rest in place — in all window
configurations (non-wrapped, wrapped with the target in the head run, wrapped
with the target in the wrapped tail).  The proviso is forced by the
counterexample: a stored `undefined` makes `remove` take its absence
branch. -/
theorem remove_correct (q : Queue) (h : Reachable q) (index : Nat) (v : Int)
    (hv : q.at' index = some v) :
    (q.remove index).1 = some v ∧ (q.remove index).2.size = q.size - 1 ∧
    ∀ j, j < q.size - 1 →
      (q.remove index).2.at' j = if j < index then q.at' j else q.at' (j + 1) :=
  remove_spec q (reachable_inv q h) index v hv

/-- Witness for C5 at a concrete input: `remove(1)` on `[1,2,3,4]` returns
`2` and the queue then reads `1,3,4`. -/
theorem remove_correct_witness :
    ((Queue.fromList [some 1, some 2, some 3, some 4]).remove 1).1 = some 2 ∧
    ((Queue.fromList [some 1, some 2, some 3, some 4]).remove 1).2.at' 1 = some 3 := by
  have h := remove_correct (Queue.fromList [some 1, some 2, some 3, some 4])
    (Reachable.fromList _ (by decide)) 1 2 (by decide)
  refine ⟨h.1, ?_⟩
  have h2 := h.2.2 1 (by decide)
  rw [if_neg (by omega)] at h2
  exact h2.trans (by decide)
